import Mathlib

set_option maxRecDepth 20000

/-! Shallow embedding of `process_runner.py` from MySQL-AutoXtraBackup: the
`ProcessHandler` class with its `run_command`, `command_to_args`,
`represent_duration` and `summarize_process` members, together with the
password redaction that `run_command` performs via `re.sub`.

Timestamps are modelled as whole seconds (`Nat`); a Python `timedelta`
obtained by subtracting two such timestamps has `.seconds` equal to the
elapsed time modulo 86400 (the sub-day component), which is what the code
reads.  Child-process behaviour (exit code, pid, produced output lines) is an
input to `run_command`, since it comes from the operating system. -/

/-- Word character of the Python regex class `\w` on ASCII input: letters,
digits and the underscore. -/
def wordChar (c : Char) : Bool := c.isAlphanum || c == '_'

/-- Single-quote character (code point 39). -/
def quoteChar : Char := Char.ofNat 39

/-- Characters of the literal part of the redaction pattern in
`re.sub("--password='?\w+'?", ...)`. -/
def pwChars : List Char := "--password=".toList

/-- Characters of the replacement text `--password='*'`. -/
def replChars : List Char := "--password='*'".toList

/-- Characters of the concrete secret value used by the specification. -/
def secChars : List Char := "secret123".toList

/-- Test whether a character list begins with a single quote. -/
def headIsQuote : List Char → Bool
  | [] => false
  | c :: _ => c == quoteChar

/-- Width of the optional opening quote consumed after the 11 literal
characters. -/
def pwQ1 (cs : List Char) : Nat := if headIsQuote (cs.drop 11) then 1 else 0

/-- The maximal run of word characters consumed after the literal and the
optional opening quote. -/
def pwRun (cs : List Char) : List Char :=
  ((cs.drop 11).drop (pwQ1 cs)).takeWhile wordChar

/-- Width of the optional closing quote consumed after the word run. -/
def pwQ2 (cs : List Char) : Nat :=
  if headIsQuote (((cs.drop 11).drop (pwQ1 cs)).drop (pwRun cs).length) then 1
  else 0

/-- Length of the match of the regex `--password='?\w+'?` at the head of
`cs`: the literal `--password=`, an optional single quote, a maximal
nonempty run of word characters, and an optional single quote.  Returns
`none` when the regex does not match at this position. -/
def matchLen (cs : List Char) : Option Nat :=
  if pwChars.isPrefixOf cs then
    if (pwRun cs).length == 0 then none
    else some (11 + pwQ1 cs + (pwRun cs).length + pwQ2 cs)
  else none

/-- One left-to-right pass of `re.sub` for the password pattern, written with
explicit fuel so that the kernel can evaluate it; each step consumes at least
one character, so `cs.length` fuel always suffices. -/
def redactFuel : Nat → List Char → List Char
  | 0, _ => []
  | _ + 1, [] => []
  | fuel + 1, c :: cs =>
    match matchLen (c :: cs) with
    | some n => replChars ++ redactFuel fuel ((c :: cs).drop n)
    | none => c :: redactFuel fuel cs

/-- Redaction on character lists: leftmost nonoverlapping matches of the
password pattern are each replaced by `--password='*'`. -/
def redactList (cs : List Char) : List Char := redactFuel cs.length cs

/-- The `filtered_command` computation of `run_command`:
`re.sub("--password='?\w+'?", "--password='*'", command)`. -/
def filterPassword (s : String) : String := String.mk (redactList s.toList)

/-- Whitespace characters recognised by `shlex` word splitting: space, tab,
carriage return, newline. -/
def isShWhitespace (c : Char) : Bool :=
  c.toNat == 32 || c.toNat == 9 || c.toNat == 13 || c.toNat == 10

/-- Lexer mode of POSIX `shlex` word splitting: outside quotes, inside single
quotes, inside double quotes. -/
inductive ShMode
  | norm
  | single
  | double
deriving DecidableEq

/-- Tokens contributed by the current partially-built word, if any. -/
def flushTok : Option (List Char) → List String
  | none => []
  | some w => [String.mk w]

/-- Characters of the current partially-built word. -/
def curTok : Option (List Char) → List Char
  | none => []
  | some w => w

/-- State machine of `shlex.split` in POSIX mode: whitespace separates
words, single quotes protect everything, double quotes protect everything
except `\"` and `\\`, and a backslash outside quotes escapes the next
character.  Unterminated quotes or a trailing escape raise `ValueError` in
Python, modelled as `none`. -/
def shlexRun (cs : List Char) (mode : ShMode) (cur : Option (List Char))
    (acc : List String) : Option (List String) :=
  match cs, mode with
  | [], .norm => some (acc ++ flushTok cur)
  | [], .single => none
  | [], .double => none
  | c :: rest, .norm =>
    if isShWhitespace c then shlexRun rest .norm none (acc ++ flushTok cur)
    else if c == quoteChar then shlexRun rest .single (some (curTok cur)) acc
    else if c == '"' then shlexRun rest .double (some (curTok cur)) acc
    else if c == '\\' then
      match rest with
      | [] => none
      | d :: rest2 => shlexRun rest2 .norm (some (curTok cur ++ [d])) acc
    else shlexRun rest .norm (some (curTok cur ++ [c])) acc
  | c :: rest, .single =>
    if c == quoteChar then shlexRun rest .norm cur acc
    else shlexRun rest .single (some (curTok cur ++ [c])) acc
  | c :: rest, .double =>
    if c == '"' then shlexRun rest .norm cur acc
    else if c == '\\' then
      match rest with
      | [] => none
      | d :: rest2 =>
        if d == '"' || d == '\\' then
          shlexRun rest2 .double (some (curTok cur ++ [d])) acc
        else shlexRun rest2 .double (some (curTok cur ++ ['\\', d])) acc
    else shlexRun rest .double (some (curTok cur ++ [c])) acc

/-- The `shlex.split` call of `command_to_args`. -/
def shlexSplit (s : String) : Option (List String) :=
  shlexRun s.toList .norm none []

/-- A command handed to `command_to_args`: a string, an already-tokenized
list, or a value of any other type. -/
inductive Command
  | str (s : String)
  | args (l : List String)
  | other

/-- Errors raised on the paths modelled here: `TypeError` from
`command_to_args`, `ValueError` from `shlex.split`, the failure of
`subprocess.Popen` on an empty argument list, and the bare
`raise ChildProcessError` of `run_command` (it carries no arguments). -/
inductive RunError
  | typeError
  | valueError
  | emptyCommand
  | childProcessError
deriving DecidableEq

/-- The static method `command_to_args`: a list is returned unchanged, a
string is word-split with `shlex.split`, anything else raises `TypeError`. -/
def command_to_args : Command → Except RunError (List String)
  | .args l => .ok l
  | .str s =>
    match shlexSplit s with
    | some l => .ok l
    | none => .error .valueError
  | .other => .error .typeError

/-- Splitting a character list on `/`, as Python `str.split("/")` does; the
result is always nonempty. -/
def splitSlash : List Char → List (List Char)
  | [] => [[]]
  | c :: rest =>
    match splitSlash rest with
    | [] => [[]]
    | w :: ws => if c == '/' then [] :: w :: ws else (c :: w) :: ws

/-- The `cmd_root` computation of `summarize_process`:
`args[0].split("/")[-1:][0]`, the base name of the executable. -/
def cmd_root (a0 : String) : String := String.mk ((splitSlash a0.toList).getLastD [])

/-- Substring containment on character lists; `re.search` with the patterns
`(--decrypt)=?[\w]*` and `(--decompress)=?[\w]*` succeeds exactly when the
literal alternative occurs somewhere in the token, since everything after the
group is optional. -/
def containsSub (pat : List Char) (cs : List Char) : Bool :=
  match cs with
  | [] => pat.isEmpty
  | _ :: rest => pat.isPrefixOf cs || containsSub pat rest

/-- Characters of the decrypt-flag pattern literal. -/
def decryptPat : List Char := "--decrypt".toList

/-- Characters of the decompress-flag pattern literal. -/
def decompressPat : List Char := "--decompress".toList

/-- Classification by the hard-coded `xtrabackup` flag rules at the top of
`summarize_process`; `none` when the executable is not `xtrabackup` or no
rule applies. -/
def toolClassify (args : List String) : Option String :=
  if cmd_root (args.headD "") == "xtrabackup" then
    if args.contains "--backup" then some "backup"
    else if args.contains "--prepare" && !(args.contains "--apply-log-only") then
      some "prepare"
    else if args.contains "--prepare" && args.contains "--apply-log-only" then
      some "prepare/apply-log-only"
    else none
  else none

/-- Body of the `for arg in args` loop of `summarize_process`: a token
containing `--decrypt` overwrites the current value with `decrypt`, otherwise
a token containing `--decompress` overwrites it with `decompress`; the loop
has no `break`. -/
def classifyStep (cur : Option String) (a : String) : Option String :=
  if containsSub decryptPat a.toList then some "decrypt"
  else if containsSub decompressPat a.toList then some "decompress"
  else cur

/-- The whole decrypt/decompress scanning loop of `summarize_process`. -/
def classifyFlags (args : List String) : Option String :=
  args.foldl classifyStep none

/-- The value of the `xtrabackup_function` variable at the end of the
classification part of `summarize_process`. -/
def xtrabackupFunction (args : List String) : Option String :=
  match toolClassify args with
  | some f => some f
  | none => classifyFlags args

/-- The `.seconds` attribute of the Python `timedelta` `end - start` for
whole-second timestamps: the elapsed time modulo 86400. -/
def timedeltaSeconds (start_time end_time : Nat) : Nat :=
  (end_time - start_time) % 86400

/-- The static method `represent_duration`: successive `divmod` by 86400,
3600 and 60 applied to `duration_delta.seconds`, rendered from the largest
nonzero unit down. -/
def represent_duration (start_time end_time : Nat) : String :=
  let seconds0 := timedeltaSeconds start_time end_time
  let days := seconds0 / 86400
  let seconds1 := seconds0 % 86400
  let hours := seconds1 / 3600
  let seconds2 := seconds1 % 3600
  let minutes := seconds2 / 60
  let seconds3 := seconds2 % 60
  if days > 0 then
    toString days ++ "d" ++ toString hours ++ "h" ++ toString minutes ++ "m" ++
      toString seconds3 ++ "s"
  else if hours > 0 then
    toString hours ++ "h" ++ toString minutes ++ "m" ++ toString seconds3 ++ "s"
  else if minutes > 0 then toString minutes ++ "m" ++ toString seconds3 ++ "s"
  else toString seconds3 ++ "s"

/-- One row appended to `self._xtrabackup_history_log`, in the order the
fields appear in the appended list.  The code stores the two timestamps
rendered with `strftime`; the claims never inspect that rendering, so the
record keeps the timestamps themselves. -/
structure ExecutionRecord where
  command : String
  xtrabackup_fn : Option String
  duration : String
  result : String
  startTime : Nat
  endTime : Nat
  exitCode : Int
  processId : Nat
deriving DecidableEq

/-- The mutable state of a `ProcessHandler`: the header list and the history
list (the configuration fields play no role in the modelled methods). -/
structure RunnerState where
  headers : List String
  history : List ExecutionRecord
deriving DecidableEq

/-- The state established by `__init__`. -/
def initialState : RunnerState :=
  { headers := ["command", "xtrabackup_function", "process_id", "result",
                "start time", "end time", "duration", "exit code"],
    history := [] }

/-- The header list that `summarize_process` assigns on every non-noise
invocation; note it differs from the one set by `__init__`. -/
def summarizeHeaders : List String :=
  ["command", "xtrabackup_fn", "duration", "result", "start time", "end time",
   "exit code", "process_id"]

/-- The method `summarize_process`: when the executable base name is `pigz`
it returns without touching the state; otherwise it overwrites the header
list and appends exactly one record built from its arguments. -/
def summarize_process (st : RunnerState) (args : List String)
    (result_str : String) (cmd_start cmd_end : Nat) (return_code : Int)
    (process_id : Nat) : RunnerState :=
  let root := cmd_root (args.headD "")
  if root == "pigz" then st
  else
    { headers := summarizeHeaders,
      history := st.history ++
        [{ command := root,
           xtrabackup_fn := xtrabackupFunction args,
           duration := represent_duration cmd_start cmd_end,
           result := result_str,
           startTime := cmd_start,
           endTime := cmd_end,
           exitCode := return_code,
           processId := process_id }] }

/-- Severity of a log line. -/
inductive LogLevel
  | debug
  | info
  | error
deriving DecidableEq, BEq

/-- One line written to the logger. -/
structure LogEntry where
  level : LogLevel
  msg : String
deriving DecidableEq

/-- Behaviour of the child process spawned by `run_command`: its exit code,
its pid, and the decoded lines read from its merged output stream. -/
structure ProcEnv where
  returncode : Int
  pid : Nat
  outputLines : List String
deriving DecidableEq

/-- Python `line.strip("\n")`: remove leading and trailing newline
characters. -/
def pyStripNL (s : String) : String :=
  String.mk (((s.toList.dropWhile (fun c => c == '\n')).reverse.dropWhile
    (fun c => c == '\n')).reverse)

/-- The method `run_command` on a string command.  It redacts the command and
logs it at INFO level, word-splits it, streams each output line to the log at
DEBUG level tagged with `args[0]` and the pid, logs an INFO completion line,
calls `summarize_process` with `Success` or `Failure` according to the exit
code, and then returns `True` on exit code zero or logs two ERROR lines and
raises a bare `ChildProcessError` otherwise.  The result bundles the state
after the call, the log lines written, and the returned value or raised
error. -/
def run_command (st : RunnerState) (command : String) (env : ProcEnv)
    (cmd_start cmd_end : Nat) :
    RunnerState × List LogEntry × Except RunError Bool :=
  let filtered := filterPassword command
  let startLog : LogEntry :=
    { level := .info, msg := "SUBPROCESS STARTING: " ++ filtered }
  match shlexSplit command with
  | none => (st, [startLog], .error .valueError)
  | some [] => (st, [startLog], .error .emptyCommand)
  | some (a0 :: restArgs) =>
    let lineLogs := env.outputLines.map fun l =>
      { level := LogLevel.debug,
        msg := "[" ++ a0 ++ ":" ++ toString env.pid ++ "] " ++ pyStripNL l }
    let doneLog : LogEntry :=
      { level := .info,
        msg := "SUBPROCESS " ++ a0 ++ " COMPLETED with exit code: " ++
          toString env.returncode }
    let result_str := if env.returncode == 0 then "Success" else "Failure"
    let st2 := summarize_process st (a0 :: restArgs) result_str cmd_start
      cmd_end env.returncode env.pid
    if env.returncode == 0 then
      (st2, [startLog] ++ lineLogs ++ [doneLog], .ok true)
    else
      (st2,
       [startLog] ++ lineLogs ++ [doneLog] ++
         [{ level := .error,
            msg := "A subprocess: " ++ a0 ++ " returned a non-zero exit code." },
          { level := .error,
            msg := "Look above for ERROR level logs from process_runner." }],
       .error .childProcessError)

/-- Inputs of one `run_command` call. -/
structure CallInput where
  command : String
  env : ProcEnv
  cmd_start : Nat
  cmd_end : Nat

/-- A single-threaded sequence of `run_command` calls, threading the state. -/
def runAll (st : RunnerState) : List CallInput → RunnerState
  | [] => st
  | c :: rest => runAll (run_command st c.command c.env c.cmd_start c.cmd_end).1 rest

/-- Token predicate of the classification loop: the token matches the decrypt
pattern or the decompress pattern. -/
def isFlagTok (a : String) : Bool :=
  containsSub decryptPat a.toList || containsSub decompressPat a.toList

/-- Classification of a single matching token, decrypt checked before
decompress. -/
def classTok (a : String) : String :=
  if containsSub decryptPat a.toList then "decrypt" else "decompress"

/-- Modelled from the amended specification wording: the classification kind
is determined by the last token matching either flag pattern.  This is the
spec-level description against which the loop of `summarize_process` is
compared. -/
def lastMatchClassifier (args : List String) : Option String :=
  match args.reverse.find? isFlagTok with
  | some a => some (classTok a)
  | none => none

/-- Position `i` of `s` is directly preceded by the literal `--password=` or
by `--password='`. -/
def flagPreceded (s : List Char) (i : Nat) : Prop :=
  (11 ≤ i ∧ pwChars.isPrefixOf (s.drop (i - 11)) = true) ∨
    (12 ≤ i ∧ (pwChars ++ [quoteChar]).isPrefixOf (s.drop (i - 12)) = true)

instance (s : List Char) (i : Nat) : Decidable (flagPreceded s i) := by
  unfold flagPreceded; infer_instance

/-- Every occurrence of the secret value in `s` sits directly after
`--password=` or `--password='`. -/
def secretSafe (s : List Char) : Prop :=
  ∀ i, i < s.length → secChars.isPrefixOf (s.drop i) = true → flagPreceded s i

instance (s : List Char) : Decidable (secretSafe s) := by
  unfold secretSafe; infer_instance

/-! Helper lemmas shared by several claims. -/

/-- A Boolean-to-existential bridge for `isPrefixOf`. -/
theorem isPrefixOf_ex {a b : List Char} (h : a.isPrefixOf b = true) :
    ∃ t, a ++ t = b := by
  induction a generalizing b with
  | nil => exact ⟨b, rfl⟩
  | cons c a ih =>
    cases b with
    | nil => simp [List.isPrefixOf] at h
    | cons d b =>
      simp only [List.isPrefixOf, Bool.and_eq_true, beq_iff_eq] at h
      obtain ⟨t, ht⟩ := ih h.2
      exact ⟨t, by rw [h.1, List.cons_append, ht]⟩

/-- Converse bridge. -/
theorem ex_isPrefixOf {a b : List Char} (h : ∃ t, a ++ t = b) :
    a.isPrefixOf b = true := by
  induction a generalizing b with
  | nil => cases b <;> simp [List.isPrefixOf]
  | cons c a ih =>
    obtain ⟨t, ht⟩ := h
    cases b with
    | nil => simp at ht
    | cons d b =>
      rw [List.cons_append] at ht
      obtain ⟨h1, h2⟩ := List.cons.inj ht
      simp only [List.isPrefixOf, Bool.and_eq_true, beq_iff_eq]
      exact ⟨h1, ih ⟨t, h2⟩⟩

/-- Filtering the per-line debug entries for error entries gives nothing. -/
theorem filter_debug_lines (lines : List String) (a0 : String) (pid : Nat) :
    (lines.map fun l =>
      ({ level := LogLevel.debug,
         msg := "[" ++ a0 ++ ":" ++ toString pid ++ "] " ++ pyStripNL l } : LogEntry)).filter
      (fun l => l.level == LogLevel.error) = [] := by
  simp only [List.filter_map]
  rw [List.filter_eq_nil_iff.mpr (fun a _ => by exact of_decide_eq_false rfl)]
  rfl

/-- C9: `command_to_args` returns an already-tokenized sequence unchanged,
so re-parsing its own output yields the same sequence. -/
theorem command_to_args_tokenized_id (l : List String) :
    command_to_args (.args l) = .ok l ∧
    (match command_to_args (.args l) with
     | .ok l2 => command_to_args (.args l2)
     | .error e => .error e) = .ok l := ⟨rfl, rfl⟩

/-- C8: the backup command string parses to its three tokens and classifies
as backup; the prepare command with the apply-log-only flag classifies as
prepare/apply-log-only and without it as prepare. -/
theorem parse_and_classify_examples :
    command_to_args (.str "xtrabackup --backup --target-dir=/data") =
      .ok ["xtrabackup", "--backup", "--target-dir=/data"] ∧
    xtrabackupFunction ["xtrabackup", "--backup", "--target-dir=/data"] =
      some "backup" ∧
    xtrabackupFunction
      ["xtrabackup", "--prepare", "--apply-log-only", "--target-dir=/data"] =
      some "prepare/apply-log-only" ∧
    xtrabackupFunction ["xtrabackup", "--prepare", "--target-dir=/data"] =
      some "prepare" := ⟨rfl, rfl, rfl, rfl⟩

/-- C10: redaction masks only the maximal leading run of word characters
after the flag, so the tail of a value containing a non-word character
survives in the redacted text. -/
theorem redact_partial_value_example :
    filterPassword "xtrabackup --password=ab-cd --backup" =
      "xtrabackup --password='*'-cd --backup" ∧
    containsSub "-cd".toList
      (filterPassword "xtrabackup --password=ab-cd --backup").toList = true :=
  ⟨rfl, rfl⟩

/-- C6: the code reads `duration_delta.seconds`, the sub-day component, so an
elapsed time of one day and one second renders as `1s` with no days
component, while the sub-day examples of the claim hold. -/
theorem represent_duration_drops_days :
    represent_duration 0 86401 = "1s" ∧
    represent_duration 0 65 = "1m5s" ∧
    represent_duration 0 3661 = "1h1m1s" ∧
    represent_duration 0 5 = "5s" := ⟨rfl, rfl, rfl, rfl⟩

/-- C2: a command whose child exits 0 and whose executable base name is not
pigz appends exactly one record with result Success and returns True. -/
theorem run_command_success_record (st : RunnerState) (command : String)
    (env : ProcEnv) (s e : Nat) (a0 : String) (rest : List String)
    (hparse : shlexSplit command = some (a0 :: rest))
    (hroot : cmd_root a0 ≠ "pigz") (hrc : env.returncode = 0) :
    (run_command st command env s e).1.history = st.history ++
      [{ command := cmd_root a0,
         xtrabackup_fn := xtrabackupFunction (a0 :: rest),
         duration := represent_duration s e, result := "Success",
         startTime := s, endTime := e, exitCode := 0,
         processId := env.pid }] ∧
    (run_command st command env s e).2.2 = .ok true := by
  have hb : (cmd_root a0 == "pigz") = false := by
    simpa using hroot
  simp [run_command, hparse, hrc, summarize_process, hb]

/-- Witness for C2 at a concrete successful backup command. -/
theorem run_command_success_record_witness :
    shlexSplit "xtrabackup --backup" = some ("xtrabackup" :: ["--backup"]) ∧
    cmd_root "xtrabackup" ≠ "pigz" ∧
    (ProcEnv.mk 0 5 ["done"]).returncode = 0 ∧
    (run_command initialState "xtrabackup --backup" (ProcEnv.mk 0 5 ["done"]) 0 65).2.2 =
      .ok true :=
  ⟨rfl, by decide, rfl,
    (run_command_success_record initialState "xtrabackup --backup"
      (ProcEnv.mk 0 5 ["done"]) 0 65 "xtrabackup" ["--backup"] rfl (by decide) rfl).2⟩

/-- C3: a command whose executable base name is pigz leaves the whole state,
in particular the history, unchanged, whatever the exit code. -/
theorem run_command_noise_skip (st : RunnerState) (command : String)
    (env : ProcEnv) (s e : Nat) (a0 : String) (rest : List String)
    (hparse : shlexSplit command = some (a0 :: rest))
    (hroot : cmd_root a0 = "pigz") :
    (run_command st command env s e).1 = st := by
  have hb : (cmd_root a0 == "pigz") = true := by simpa using hroot
  simp only [run_command, hparse, summarize_process, List.headD, hb, if_true]
  split <;> rfl

/-- Witness for C3 at a concrete pigz probe with a nonzero exit code. -/
theorem run_command_noise_skip_witness :
    shlexSplit "pigz --version" = some ("pigz" :: ["--version"]) ∧
    cmd_root "pigz" = "pigz" ∧
    (run_command initialState "pigz --version" (ProcEnv.mk 2 9 ["pigz 2.4"]) 0 1).1 =
      initialState :=
  ⟨rfl, rfl,
    run_command_noise_skip initialState "pigz --version" (ProcEnv.mk 2 9 ["pigz 2.4"])
      0 1 "pigz" ["--version"] rfl rfl⟩

/-- C1 counterexample: at a concrete failing command the raised error is the
bare `ChildProcessError`, and the ERROR-level block (exactly two lines)
contains neither the redacted command nor the last captured output line, so
the claimed error content does not hold. -/
theorem run_command_failure_claim_cex :
    ((run_command initialState "xtrabackup --backup --password=secret123"
        (ProcEnv.mk 1 7 ["boom"]) 0 65).2.1.filter
        (fun l => l.level == LogLevel.error)).length = 2 ∧
    ((run_command initialState "xtrabackup --backup --password=secret123"
        (ProcEnv.mk 1 7 ["boom"]) 0 65).2.1.filter
        (fun l => l.level == LogLevel.error)).all
      (fun l => !containsSub "boom".toList l.msg.toList &&
        !containsSub
          (filterPassword "xtrabackup --backup --password=secret123").toList
          l.msg.toList) = true ∧
    (run_command initialState "xtrabackup --backup --password=secret123"
        (ProcEnv.mk 1 7 ["boom"]) 0 65).2.2 = .error .childProcessError :=
  ⟨rfl, rfl, rfl⟩

/-- C1 amended: a failing non-noise command appends exactly one record with
result Failure carrying the exit code, raises the bare `ChildProcessError`
(which carries no data), and logs exactly two fixed ERROR lines that name the
executable but contain neither the redacted command nor any output line. -/
theorem run_command_failure_behavior (st : RunnerState) (command : String)
    (env : ProcEnv) (s e : Nat) (a0 : String) (rest : List String)
    (hparse : shlexSplit command = some (a0 :: rest))
    (hroot : cmd_root a0 ≠ "pigz") (hrc : env.returncode ≠ 0) :
    (run_command st command env s e).1.history = st.history ++
      [{ command := cmd_root a0,
         xtrabackup_fn := xtrabackupFunction (a0 :: rest),
         duration := represent_duration s e, result := "Failure",
         startTime := s, endTime := e, exitCode := env.returncode,
         processId := env.pid }] ∧
    (run_command st command env s e).2.2 = .error .childProcessError ∧
    (run_command st command env s e).2.1.filter
        (fun l => l.level == LogLevel.error) =
      [{ level := .error,
         msg := "A subprocess: " ++ a0 ++ " returned a non-zero exit code." },
       { level := .error,
         msg := "Look above for ERROR level logs from process_runner." }] := by
  have hb : (cmd_root a0 == "pigz") = false := by simpa using hroot
  have hz : (env.returncode == 0) = false := by simpa using hrc
  have e1 : (LogLevel.info == LogLevel.error) = false := rfl
  have e2 : (LogLevel.error == LogLevel.error) = true := rfl
  refine ⟨?_, ?_, ?_⟩
  · simp [run_command, hparse, hz, hrc, summarize_process, hb]
  · simp [run_command, hparse, hz, hrc]
  · simp [run_command, hparse, hz, hrc, List.filter_append, List.filter_cons,
      filter_debug_lines, e1, e2]

/-- Witness for the amended C1 at a concrete failing command. -/
theorem run_command_failure_behavior_witness :
    shlexSplit "xtrabackup --prepare" = some ("xtrabackup" :: ["--prepare"]) ∧
    cmd_root "xtrabackup" ≠ "pigz" ∧
    (ProcEnv.mk 1 7 ["boom"]).returncode ≠ 0 ∧
    (run_command initialState "xtrabackup --prepare" (ProcEnv.mk 1 7 ["boom"]) 0 65).2.2 =
      .error .childProcessError :=
  ⟨rfl, by decide, by decide,
    (run_command_failure_behavior initialState "xtrabackup --prepare"
      (ProcEnv.mk 1 7 ["boom"]) 0 65 "xtrabackup" ["--prepare"] rfl (by decide)
      (by decide)).2.1⟩

/-- C4 counterexample: the column header is not fixed; the first non-noise
call overwrites it with a different list than the one set by `__init__`. -/
theorem headers_not_fixed_cex :
    (run_command initialState "xtrabackup --backup" (ProcEnv.mk 0 3 []) 0 5).1.headers ≠
      initialState.headers ∧
    (run_command initialState "xtrabackup --backup" (ProcEnv.mk 0 3 []) 0 5).1.headers =
      summarizeHeaders := ⟨by decide, rfl⟩

/-- C4 amended: the history itself is append-only — each call appends at most
one record at the end, and across any call sequence the earlier history is a
prefix of the later one, so record order equals call order — while the header
list is overwritten by non-noise calls. -/
theorem history_append_only :
    (∀ st command env s e,
      (run_command st command env s e).1.history = st.history ∨
        ∃ r, (run_command st command env s e).1.history = st.history ++ [r]) ∧
    (∀ st calls, ∃ t, st.history ++ t = (runAll st calls).history) := by
  have step : ∀ (st : RunnerState) (command : String) (env : ProcEnv) (s e : Nat),
      (run_command st command env s e).1.history = st.history ∨
        ∃ r, (run_command st command env s e).1.history = st.history ++ [r] := by
    intro st command env s e
    rcases h : shlexSplit command with _ | args
    · left; simp [run_command, h]
    · rcases args with _ | ⟨a0, rest⟩
      · left; simp [run_command, h]
      · by_cases hroot : cmd_root a0 = "pigz"
        · left
          by_cases hz : env.returncode = 0 <;>
            simp [run_command, h, summarize_process, hroot, hz]
        · right
          refine ⟨{ command := cmd_root a0,
                    xtrabackup_fn := xtrabackupFunction (a0 :: rest),
                    duration := represent_duration s e,
                    result := if env.returncode == 0 then "Success" else "Failure",
                    startTime := s, endTime := e, exitCode := env.returncode,
                    processId := env.pid }, ?_⟩
          by_cases hz : env.returncode = 0 <;>
            simp [run_command, h, summarize_process, hroot, hz]
  refine ⟨step, ?_⟩
  intro st calls
  induction calls generalizing st with
  | nil => exact ⟨[], by simp [runAll]⟩
  | cons c cs ih =>
    obtain ⟨t2, ht2⟩ := ih (run_command st c.command c.env c.cmd_start c.cmd_end).1
    rcases step st c.command c.env c.cmd_start c.cmd_end with h1 | ⟨r, h1⟩
    · exact ⟨t2, by rw [runAll, ← ht2, h1]⟩
    · exact ⟨[r] ++ t2, by rw [runAll, ← ht2, h1, List.append_assoc]⟩

/-- C5 counterexample: a vector whose decrypt-flag token precedes a
decompress-flag token classifies as decompress, not decrypt, because the scan
loop keeps overwriting without breaking. -/
theorem classify_first_match_cex :
    xtrabackupFunction ["innobackupex", "--decrypt=AES256", "--decompress"] ≠
      some "decrypt" ∧
    xtrabackupFunction ["innobackupex", "--decrypt=AES256", "--decompress"] =
      some "decompress" := ⟨by decide, rfl⟩

/-- The search over a one-element list. -/
theorem find_singleton (p : String → Bool) (a : String) :
    [a].find? p = if p a then some a else none := by
  cases h : p a <;> simp [List.find?, h]

/-- Folding the loop body equals picking the last matching token. -/
theorem foldl_classifyStep (l : List String) (v : Option String) :
    l.foldl classifyStep v =
      match l.reverse.find? isFlagTok with
      | some a => some (classTok a)
      | none => v := by
  induction l generalizing v with
  | nil => rfl
  | cons a l ih =>
    rw [List.foldl_cons, ih, List.reverse_cons, List.find?_append]
    rcases h : l.reverse.find? isFlagTok with _ | b
    · rw [Option.none_or, find_singleton]
      unfold classifyStep isFlagTok classTok
      cases h1 : containsSub decryptPat a.data <;>
        cases h2 : containsSub decompressPat a.data <;>
          simp [String.toList, h1, h2]
    · rfl

/-- C5 amended: outside the backup-tool flag rules, the scan is
last-match-wins — the classification equals that of the last token matching
either pattern, with decrypt tested before decompress on each single token —
so a decrypt token followed by a decompress token yields decompress. -/
theorem classify_last_match :
    (∀ args, toolClassify args = none →
      xtrabackupFunction args = lastMatchClassifier args) ∧
    xtrabackupFunction ["innobackupex", "--decrypt=AES256", "--decompress"] =
      some "decompress" := by
  refine ⟨?_, rfl⟩
  intro args h
  have hf := foldl_classifyStep args none
  simp only [xtrabackupFunction, h, classifyFlags, lastMatchClassifier]
  exact hf

/-- Witness for the amended C5 at a vector whose decompress token precedes a
decrypt token. -/
theorem classify_last_match_witness :
    toolClassify ["innobackupex", "--decompress", "--decrypt=X"] = none ∧
    xtrabackupFunction ["innobackupex", "--decompress", "--decrypt=X"] =
      lastMatchClassifier ["innobackupex", "--decompress", "--decrypt=X"] :=
  ⟨rfl, classify_last_match.1 _ rfl⟩

/-! Lemmas on the structure of the redaction scanner, towards C7. -/

/-- A successful match consumes at least the literal part. -/
theorem matchLen_ge {cs : List Char} {n : Nat} (h : matchLen cs = some n) :
    11 ≤ n := by
  unfold matchLen at h
  split at h
  · split at h
    · exact absurd h (by simp)
    · obtain hn := Option.some.inj h
      omega
  · exact absurd h (by simp)

/-- Redaction of the empty list is empty at any fuel. -/
theorem redactFuel_nil (f : Nat) : redactFuel f [] = [] := by
  cases f <;> rfl

/-- Fuel does not matter once it covers the length. -/
theorem redactFuel_congr :
    ∀ (f g : Nat) (cs : List Char), cs.length ≤ f → cs.length ≤ g →
      redactFuel f cs = redactFuel g cs := by
  intro f
  induction f with
  | zero =>
    intro g cs hf _
    have : cs = [] := List.eq_nil_of_length_eq_zero (Nat.le_zero.mp hf)
    rw [this, redactFuel_nil, redactFuel_nil]
  | succ f ih =>
    intro g cs hf hg
    cases cs with
    | nil => rw [redactFuel_nil, redactFuel_nil]
    | cons c cs =>
      cases g with
      | zero => simp at hg
      | succ g =>
        cases hm : matchLen (c :: cs) with
        | some n =>
          have h1 : 11 ≤ n := matchLen_ge hm
          have hlen : ((c :: cs).drop n).length ≤ f := by
            simp only [List.length_drop, List.length_cons]
            simp only [List.length_cons] at hf
            omega
          have hlen2 : ((c :: cs).drop n).length ≤ g := by
            simp only [List.length_drop, List.length_cons]
            simp only [List.length_cons] at hg
            omega
          simp only [redactFuel, hm]
          rw [ih g ((c :: cs).drop n) hlen hlen2]
        | none =>
          simp only [redactFuel, hm]
          simp only [List.length_cons] at hf hg
          rw [ih g cs (by omega) (by omega)]

/-- Unfolding `redactList` when no match starts at the head. -/
theorem redactList_cons_none {c : Char} {cs : List Char}
    (hm : matchLen (c :: cs) = none) :
    redactList (c :: cs) = c :: redactList cs := by
  simp only [redactList, List.length_cons, redactFuel, hm]

/-- Unfolding `redactList` when a match of length `n` starts at the head. -/
theorem redactList_cons_some {c : Char} {cs : List Char} {n : Nat}
    (hm : matchLen (c :: cs) = some n) :
    redactList (c :: cs) = replChars ++ redactList ((c :: cs).drop n) := by
  have h1 : 11 ≤ n := matchLen_ge hm
  simp only [redactList, List.length_cons, redactFuel, hm]
  rw [redactFuel_congr cs.length ((c :: cs).drop n).length ((c :: cs).drop n)
    (by simp only [List.length_drop, List.length_cons]; omega) le_rfl]

/-- A list whose head test for a quote succeeds starts with a quote. -/
theorem headIsQuote_true {l : List Char} (h : headIsQuote l = true) :
    ∃ t, l = quoteChar :: t := by
  cases l with
  | nil => simp [headIsQuote] at h
  | cons c t =>
    simp only [headIsQuote, beq_iff_eq] at h
    exact ⟨t, by rw [h]⟩

/-- `takeWhile` walks through a front segment on which the test holds. -/
theorem takeWhile_all_front {p : Char → Bool} :
    ∀ {a : List Char} (b : List Char), (∀ c ∈ a, p c = true) →
      (a ++ b).takeWhile p = a ++ b.takeWhile p := by
  intro a
  induction a with
  | nil => intro b _; rfl
  | cons c a ih =>
    intro b h
    rw [List.cons_append, List.takeWhile_cons, if_pos (h c (List.mem_cons_self c a)),
      ih b (fun d hd => h d (List.mem_cons_of_mem c hd)), List.cons_append]

/-- A successful match decomposes the input as the literal, a nonempty
middle of quotes and word characters of the right length, and a remainder. -/
theorem matchLen_decomp {cs : List Char} {n : Nat} (h : matchLen cs = some n) :
    ∃ mid rest, cs = pwChars ++ (mid ++ rest) ∧ n = 11 + mid.length ∧
      mid ≠ [] ∧ ∀ c ∈ mid, c = quoteChar ∨ wordChar c = true := by
  have hpre : pwChars.isPrefixOf cs = true := by
    by_contra hx
    rw [Bool.not_eq_true] at hx
    rw [matchLen, if_neg (by simp [hx])] at h
    exact absurd h (by simp)
  have hrunne : (pwRun cs).length ≠ 0 := by
    intro hx
    rw [matchLen, if_pos hpre, if_pos (by simp [hx])] at h
    exact absurd h (by simp)
  have hn : n = 11 + pwQ1 cs + (pwRun cs).length + pwQ2 cs := by
    rw [matchLen, if_pos hpre, if_neg (by simp [hrunne])] at h
    exact (Option.some.inj h).symm
  obtain ⟨t, ht⟩ := isPrefixOf_ex hpre
  have ht11 : cs.drop 11 = t := by
    rw [← ht, show (11 : Nat) = pwChars.length from rfl, List.drop_left]
  have hwrun : ∀ c ∈ pwRun cs, wordChar c = true :=
    fun c hc => List.mem_takeWhile_imp hc
  have htw := List.takeWhile_append_dropWhile (p := wordChar)
    (l := (cs.drop 11).drop (pwQ1 cs))
  have hrest3 : ((cs.drop 11).drop (pwQ1 cs)).drop (pwRun cs).length =
      ((cs.drop 11).drop (pwQ1 cs)).dropWhile wordChar := by
    conv_lhs => rw [← htw]
    rw [show (pwRun cs).length =
      (((cs.drop 11).drop (pwQ1 cs)).takeWhile wordChar).length from rfl,
      List.drop_left]
  set R := pwRun cs with hR
  set D := ((cs.drop 11).drop (pwQ1 cs)).dropWhile wordChar with hD
  have hRne : R ≠ [] := fun hnil => hrunne (by rw [hnil]; rfl)
  have hRw : ∀ c ∈ R, wordChar c = true := hwrun
  by_cases hq1 : headIsQuote (cs.drop 11) = true
  · obtain ⟨t2, ht2⟩ := headIsQuote_true hq1
    have hq1v : pwQ1 cs = 1 := by rw [pwQ1, if_pos hq1]
    have hd2 : (cs.drop 11).drop (pwQ1 cs) = t2 := by
      rw [hq1v, ht2]
      rfl
    have ht2t : t = quoteChar :: t2 := by rw [← ht11, ht2]
    by_cases hq2 : headIsQuote (((cs.drop 11).drop (pwQ1 cs)).drop R.length) = true
    · obtain ⟨t3, ht3⟩ := headIsQuote_true hq2
      have hq2v : pwQ2 cs = 1 := by rw [pwQ2, ← hR, if_pos hq2]
      have hX : t2 = R ++ (quoteChar :: t3) := by
        rw [← ht3, hrest3, hR, pwRun, htw]
        exact hd2.symm
      refine ⟨quoteChar :: (R ++ [quoteChar]), t3, ?_, ?_, by simp, ?_⟩
      · rw [← ht, ht2t, hX]
        simp
      · rw [hn, hq1v, hq2v]
        simp only [List.length_cons, List.length_append, List.length_nil]
        omega
      · intro c hc
        rcases List.mem_cons.mp hc with hc | hc
        · exact Or.inl hc
        · rcases List.mem_append.mp hc with hc | hc
          · exact Or.inr (hRw c hc)
          · simp at hc
            exact Or.inl hc
    · have hq2v : pwQ2 cs = 0 := by rw [pwQ2, ← hR, if_neg hq2]
      have hX : t2 = R ++ D := by
        rw [hR, pwRun, hD, htw]
        exact hd2.symm
      refine ⟨quoteChar :: R, D, ?_, ?_, by simp, ?_⟩
      · rw [← ht, ht2t, hX]
        simp
      · rw [hn, hq1v, hq2v]
        simp only [List.length_cons]
        omega
      · intro c hc
        rcases List.mem_cons.mp hc with hc | hc
        · exact Or.inl hc
        · exact Or.inr (hRw c hc)
  · have hq1v : pwQ1 cs = 0 := by rw [pwQ1, if_neg hq1]
    have hd2 : (cs.drop 11).drop (pwQ1 cs) = t := by
      rw [hq1v, List.drop_zero, ht11]
    by_cases hq2 : headIsQuote (((cs.drop 11).drop (pwQ1 cs)).drop R.length) = true
    · obtain ⟨t3, ht3⟩ := headIsQuote_true hq2
      have hq2v : pwQ2 cs = 1 := by rw [pwQ2, ← hR, if_pos hq2]
      have hX : t = R ++ (quoteChar :: t3) := by
        rw [← ht3, hrest3, hR, pwRun, htw]
        exact hd2.symm
      refine ⟨R ++ [quoteChar], t3, ?_, ?_, by simp, ?_⟩
      · rw [← ht, hX]
        simp
      · rw [hn, hq1v, hq2v]
        simp only [List.length_append, List.length_cons, List.length_nil]
        omega
      · intro c hc
        rcases List.mem_append.mp hc with hc | hc
        · exact Or.inr (hRw c hc)
        · simp at hc
          exact Or.inl hc
    · have hq2v : pwQ2 cs = 0 := by rw [pwQ2, ← hR, if_neg hq2]
      have hX : t = R ++ D := by
        rw [hR, pwRun, hD, htw]
        exact hd2.symm
      refine ⟨R, D, ?_, ?_, hRne, ?_⟩
      · rw [← ht, hX]
      · rw [hn, hq1v, hq2v]
        omega
      · intro c hc
        exact Or.inr (hRw c hc)

/-- No match starts strictly inside another match: every character after the
first two is not a dash, while a match needs two leading dashes. -/
theorem matchLen_inside {cs : List Char} {n p : Nat} (h : matchLen cs = some n)
    (hp0 : 0 < p) (hpn : p < n) : matchLen (cs.drop p) = none := by
  obtain ⟨mid, rest, hcs, hn, hmidne, hmid⟩ := matchLen_decomp h
  have hmidpos : 0 < mid.length := List.length_pos.mpr hmidne
  suffices hx : pwChars.isPrefixOf (cs.drop p) = false by
    rw [matchLen, if_neg (by simp [hx])]
  by_contra hb
  rw [Bool.not_eq_false] at hb
  obtain ⟨t, ht⟩ := isPrefixOf_ex hb
  have hdash1 : cs[p]? = some '-' := by
    have h0 : (cs.drop p)[0]? = some '-' := by rw [← ht]; rfl
    rwa [List.getElem?_drop, Nat.add_zero] at h0
  have hdash2 : cs[p + 1]? = some '-' := by
    have h0 : (cs.drop p)[1]? = some '-' := by rw [← ht]; rfl
    rwa [List.getElem?_drop] at h0
  have hA : ∀ k, 2 ≤ k → k < 11 + mid.length → cs[k]? ≠ some '-' := by
    intro k hk2 hkn hcontra
    rw [hcs, List.getElem?_append,
      show pwChars.length = 11 from rfl] at hcontra
    by_cases hk11 : k < 11
    · rw [if_pos hk11] at hcontra
      interval_cases k <;> exact absurd hcontra (by decide)
    · rw [if_neg hk11] at hcontra
      have hklt : k - 11 < mid.length := by omega
      rw [List.getElem?_append, if_pos hklt] at hcontra
      rcases hmid _ (List.getElem?_mem hcontra) with hq | hw
      · exact absurd hq (by decide)
      · exact absurd hw (by decide)
  rcases Nat.lt_or_ge p 2 with hp2 | hp2
  · have hp1 : p = 1 := by omega
    rw [hp1] at hdash2
    exact hA 2 (by omega) (by omega) hdash2
  · exact hA p hp2 (by omega) hdash1

/-- Splitting a prefix relation over an append: the shorter list is a prefix
of the other. -/
theorem pre_append_cases {x z : List Char} :
    ∀ {y : List Char}, (∃ t, x ++ t = y ++ z) →
      (∃ t, x ++ t = y) ∨ (∃ t, y ++ t = x) := by
  suffices hgen : ∀ (y x : List Char), (∃ t, x ++ t = y ++ z) →
      (∃ t, x ++ t = y) ∨ (∃ t, y ++ t = x) by
    intro y h
    exact hgen y x h
  intro y
  induction y with
  | nil => intro x _; exact Or.inr ⟨x, rfl⟩
  | cons c y ih =>
    intro x h
    cases x with
    | nil => exact Or.inl ⟨c :: y, rfl⟩
    | cons d x =>
      obtain ⟨t, ht⟩ := h
      rw [List.cons_append, List.cons_append] at ht
      obtain ⟨h1, h2⟩ := List.cons.inj ht
      rcases ih x ⟨t, h2⟩ with ⟨t2, ht2⟩ | ⟨t2, ht2⟩
      · exact Or.inl ⟨t2, by rw [List.cons_append, ht2, h1]⟩
      · exact Or.inr ⟨t2, by rw [List.cons_append, ht2, h1]⟩

/-- An occurrence of the secret in the replacement text followed by anything
must lie entirely beyond the replacement. -/
theorem sec_of_repl_append {u : List Char} {i : Nat}
    (h : ∃ t, secChars ++ t = (replChars ++ u).drop i) :
    14 ≤ i ∧ ∃ t, secChars ++ t = u.drop (i - 14) := by
  rw [List.drop_append_eq_append_drop, show replChars.length = 14 from rfl] at h
  by_cases hi : 14 ≤ i
  · rw [List.drop_eq_nil_of_le (by rw [show replChars.length = 14 from rfl]; omega),
      List.nil_append] at h
    exact ⟨hi, h⟩
  · exfalso
    rcases pre_append_cases h with hcase | hcase
    · have hb : secChars.isPrefixOf (replChars.drop i) = true := ex_isPrefixOf hcase
      interval_cases i <;> exact absurd hb (by decide)
    · have hb : (replChars.drop i).isPrefixOf secChars = true := ex_isPrefixOf hcase
      interval_cases i <;> exact absurd hb (by decide)

/-- A nonempty prefix of the redaction output made of word characters is a
prefix of the input, and no match starts within its width. -/
theorem word_pre_redact :
    ∀ (b s : List Char), (∀ c ∈ b, wordChar c = true) → b ≠ [] →
      (∃ t, b ++ t = redactList s) →
      (∃ t, b ++ t = s) ∧
        ∀ p n, matchLen (s.drop p) = some n → b.length ≤ p := by
  intro b
  induction b with
  | nil => intro s _ hne _; exact absurd rfl hne
  | cons c b ih =>
    intro s hw _ hpre
    cases s with
    | nil =>
      obtain ⟨t, ht⟩ := hpre
      rw [show redactList [] = [] from rfl] at ht
      exact absurd ht (by simp)
    | cons c0 s =>
      cases hm : matchLen (c0 :: s) with
      | some n =>
        exfalso
        obtain ⟨t, ht⟩ := hpre
        rw [redactList_cons_some hm,
          show replChars = '-' :: replChars.tail from rfl,
          List.cons_append, List.cons_append] at ht
        obtain ⟨h1, _⟩ := List.cons.inj ht
        have := hw c (List.mem_cons_self c b)
        rw [h1] at this
        exact absurd this (by decide)
      | none =>
        obtain ⟨t, ht⟩ := hpre
        rw [redactList_cons_none hm, List.cons_append] at ht
        obtain ⟨h1, h2⟩ := List.cons.inj ht
        by_cases hbe : b = []
        · subst hbe
          refine ⟨⟨s, by rw [List.cons_append, List.nil_append, h1]⟩, ?_⟩
          intro p n hp
          cases p with
          | zero => rw [List.drop_zero] at hp; exact absurd hp (by simp [hm])
          | succ p => simp
        · obtain ⟨⟨t2, ht2⟩, hcond⟩ := ih s
            (fun d hd => hw d (List.mem_cons_of_mem c hd)) hbe ⟨t, h2⟩
          refine ⟨⟨t2, by rw [List.cons_append, ht2, h1]⟩, ?_⟩
          intro p n hp
          cases p with
          | zero => rw [List.drop_zero] at hp; exact absurd hp (by simp [hm])
          | succ p =>
            have := hcond p n (by rwa [List.drop_succ_cons] at hp)
            simp only [List.length_cons]
            omega

/-- Every occurrence of the secret in the redaction output comes from an
occurrence in the input that no match overlaps. -/
theorem sec_occ_redact :
    ∀ (L : Nat) (s : List Char), s.length ≤ L → ∀ i,
      (∃ t, secChars ++ t = (redactList s).drop i) →
      ∃ j, (∃ t, secChars ++ t = s.drop j) ∧
        ∀ p n, matchLen (s.drop p) = some n → p + n ≤ j ∨ j + 9 ≤ p := by
  intro L
  induction L with
  | zero =>
    intro s hs i h
    have hnil : s = [] := List.eq_nil_of_length_eq_zero (Nat.le_zero.mp hs)
    subst hnil
    obtain ⟨t, ht⟩ := h
    rw [show redactList [] = [] from rfl, List.drop_nil] at ht
    have hlen := congrArg List.length ht
    rw [List.length_append, show secChars.length = 9 from rfl] at hlen
    simp only [List.length_nil] at hlen
    omega
  | succ L ih =>
    intro s hs i h
    cases s with
    | nil =>
      obtain ⟨t, ht⟩ := h
      rw [show redactList [] = [] from rfl, List.drop_nil] at ht
      have hlen := congrArg List.length ht
      rw [List.length_append, show secChars.length = 9 from rfl] at hlen
      simp only [List.length_nil] at hlen
      omega
    | cons c s =>
      cases hm : matchLen (c :: s) with
      | some n =>
        rw [redactList_cons_some hm] at h
        obtain ⟨hi14, h2⟩ := sec_of_repl_append h
        have hlen : ((c :: s).drop n).length ≤ L := by
          have := matchLen_ge hm
          simp only [List.length_drop, List.length_cons]
          simp only [List.length_cons] at hs
          omega
        obtain ⟨j, hpre, hcond⟩ := ih ((c :: s).drop n) hlen (i - 14) h2
        refine ⟨n + j, ?_, ?_⟩
        · rwa [List.drop_drop] at hpre
        · intro p m hp
          rcases Nat.eq_zero_or_pos p with hp0 | hp0
          · subst hp0
            rw [List.drop_zero, hm] at hp
            have := Option.some.inj hp
            left
            omega
          · rcases Nat.lt_or_ge p n with hpn | hpn
            · rw [matchLen_inside hm hp0 hpn] at hp
              exact absurd hp (by simp)
            · have hp2 : matchLen (((c :: s).drop n).drop (p - n)) = some m := by
                rw [List.drop_drop, show n + (p - n) = p from by omega]
                exact hp
              rcases hcond (p - n) m hp2 with hc | hc
              · left; omega
              · right; omega
      | none =>
        rw [redactList_cons_none hm] at h
        cases i with
        | zero =>
          obtain ⟨t, ht⟩ := h
          rw [List.drop_zero, show secChars = 's' :: "ecret123".toList from rfl,
            List.cons_append] at ht
          obtain ⟨h1, h2⟩ := List.cons.inj ht
          obtain ⟨⟨t2, ht2⟩, hcond⟩ := word_pre_redact ("ecret123".toList) s
            (by decide) (by decide) ⟨t, h2⟩
          refine ⟨0, ⟨t2, ?_⟩, ?_⟩
          · rw [List.drop_zero, show secChars = 's' :: "ecret123".toList from rfl,
              List.cons_append, ht2, h1]
          · intro p m hp
            cases p with
            | zero =>
              rw [List.drop_zero] at hp
              exact absurd hp (by simp [hm])
            | succ p =>
              right
              have h8 := hcond p m (by rwa [List.drop_succ_cons] at hp)
              rw [show ("ecret123".toList).length = 8 from rfl] at h8
              omega
        | succ i =>
          rw [List.drop_succ_cons] at h
          obtain ⟨j, hpre, hcond⟩ := ih s
            (by simp only [List.length_cons] at hs; omega) i h
          refine ⟨j + 1, by rwa [List.drop_succ_cons], ?_⟩
          intro p m hp
          cases p with
          | zero =>
            rw [List.drop_zero] at hp
            exact absurd hp (by simp [hm])
          | succ p =>
            rcases hcond p m (by rwa [List.drop_succ_cons] at hp) with hc | hc
            · left; omega
            · right; omega

/-- A match fires on the literal followed directly by the secret, consuming
at least twenty characters. -/
theorem matchLen_pw_sec (u : List Char) :
    ∃ m, matchLen (pwChars ++ (secChars ++ u)) = some m ∧ 20 ≤ m := by
  have hdrop : (pwChars ++ (secChars ++ u)).drop 11 = secChars ++ u := by
    rw [show (11 : Nat) = pwChars.length from rfl, List.drop_left]
  have hq1 : pwQ1 (pwChars ++ (secChars ++ u)) = 0 := by
    rw [pwQ1, hdrop]
    rfl
  have hrun : pwRun (pwChars ++ (secChars ++ u)) =
      secChars ++ u.takeWhile wordChar := by
    rw [pwRun, hq1, hdrop, List.drop_zero]
    exact takeWhile_all_front u (by decide)
  have hlen : 9 ≤ (pwRun (pwChars ++ (secChars ++ u))).length := by
    rw [hrun, List.length_append, show secChars.length = 9 from rfl]
    omega
  refine ⟨11 + pwQ1 (pwChars ++ (secChars ++ u)) +
    (pwRun (pwChars ++ (secChars ++ u))).length +
    pwQ2 (pwChars ++ (secChars ++ u)), ?_, ?_⟩
  · rw [matchLen, if_pos (ex_isPrefixOf ⟨secChars ++ u, rfl⟩),
      if_neg (by simp only [beq_iff_eq]; omega)]
  · rw [hq1]
    omega

/-- A match fires on the literal followed by a quote and the secret,
consuming at least twenty-one characters. -/
theorem matchLen_pw_quote_sec (u : List Char) :
    ∃ m, matchLen (pwChars ++ (quoteChar :: (secChars ++ u))) = some m ∧
      21 ≤ m := by
  have hdrop : (pwChars ++ (quoteChar :: (secChars ++ u))).drop 11 =
      quoteChar :: (secChars ++ u) := by
    rw [show (11 : Nat) = pwChars.length from rfl, List.drop_left]
  have hq1 : pwQ1 (pwChars ++ (quoteChar :: (secChars ++ u))) = 1 := by
    rw [pwQ1, hdrop]
    rfl
  have hrun : pwRun (pwChars ++ (quoteChar :: (secChars ++ u))) =
      secChars ++ u.takeWhile wordChar := by
    rw [pwRun, hq1, hdrop, List.drop_one, List.tail_cons]
    exact takeWhile_all_front u (by decide)
  have hlen : 9 ≤ (pwRun (pwChars ++ (quoteChar :: (secChars ++ u)))).length := by
    rw [hrun, List.length_append, show secChars.length = 9 from rfl]
    omega
  refine ⟨11 + pwQ1 (pwChars ++ (quoteChar :: (secChars ++ u))) +
    (pwRun (pwChars ++ (quoteChar :: (secChars ++ u)))).length +
    pwQ2 (pwChars ++ (quoteChar :: (secChars ++ u))), ?_, ?_⟩
  · rw [matchLen, if_pos (ex_isPrefixOf ⟨quoteChar :: (secChars ++ u), rfl⟩),
      if_neg (by simp only [beq_iff_eq]; omega)]
  · rw [hq1]
    omega

/-- C7 counterexample: a command containing the flag-with-secret also
contains the secret as a standalone word; the redacted text replaces the
flag occurrence yet still contains the literal secret. -/
theorem redact_contains_secret_cex :
    filterPassword "echo secret123 --password=secret123" =
      "echo secret123 --password='*'" ∧
    containsSub secChars
      (filterPassword "echo secret123 --password=secret123").toList = true :=
  ⟨rfl, rfl⟩

/-- C7 amended: whenever every occurrence of the secret in the command sits
directly after the flag (unquoted or quoted), the redacted text contains the
secret nowhere; and a command with one unquoted and one quoted occurrence has
both replaced by the masked flag. -/
theorem redact_removes_flagged_secret :
    (∀ s : List Char, secretSafe s →
      ∀ i, secChars.isPrefixOf ((redactList s).drop i) = false) ∧
    filterPassword "connect --password=secret123 --fast --password='secret123' go" =
      "connect --password='*' --fast --password='*' go" := by
  refine ⟨?_, rfl⟩
  intro s hs i
  cases hb : secChars.isPrefixOf ((redactList s).drop i) with
  | false => rfl
  | true =>
    exfalso
    obtain ⟨j, ⟨t0, ht0⟩, hcond⟩ :=
      sec_occ_redact s.length s le_rfl i (isPrefixOf_ex hb)
    have hlen := congrArg List.length ht0
    rw [List.length_append, show secChars.length = 9 from rfl,
      List.length_drop] at hlen
    have hjlen : j < s.length := by omega
    have hsafe := hs j hjlen (ex_isPrefixOf ⟨t0, ht0⟩)
    rw [flagPreceded] at hsafe
    rcases hsafe with ⟨hj11, hpw⟩ | ⟨hj12, hpw⟩
    · obtain ⟨t1, ht1⟩ := isPrefixOf_ex hpw
      have ht1v : t1 = secChars ++ t0 := by
        have e1 : (pwChars ++ t1).drop 11 = t1 := by
          rw [show (11 : Nat) = pwChars.length from rfl, List.drop_left]
        rw [← e1, ht1, List.drop_drop, show j - 11 + 11 = j from by omega]
        exact ht0.symm
      have hform : s.drop (j - 11) = pwChars ++ (secChars ++ t0) := by
        rw [← ht1, ht1v]
      obtain ⟨m, hmatch, hm20⟩ := matchLen_pw_sec t0
      rw [← hform] at hmatch
      rcases hcond (j - 11) m hmatch with hc | hc
      · omega
      · omega
    · obtain ⟨t1, ht1⟩ := isPrefixOf_ex hpw
      have ht1v : t1 = secChars ++ t0 := by
        have e1 : ((pwChars ++ [quoteChar]) ++ t1).drop 12 = t1 := by
          rw [show (12 : Nat) = (pwChars ++ [quoteChar]).length from rfl,
            List.drop_left]
        rw [← e1, ht1, List.drop_drop, show j - 12 + 12 = j from by omega]
        exact ht0.symm
      have hform : s.drop (j - 12) =
          pwChars ++ (quoteChar :: (secChars ++ t0)) := by
        rw [← ht1, ht1v, List.append_assoc]
        rfl
      obtain ⟨m, hmatch, hm21⟩ := matchLen_pw_quote_sec t0
      rw [← hform] at hmatch
      rcases hcond (j - 12) m hmatch with hc | hc
      · omega
      · omega

/-- Witness for the amended C7 at a concrete command whose only secret
occurrence follows the flag. -/
theorem redact_removes_flagged_secret_witness :
    secretSafe ("run --password=secret123 now".toList) ∧
    secChars.isPrefixOf
      ((redactList ("run --password=secret123 now".toList)).drop 4) = false :=
  ⟨by decide, redact_removes_flagged_secret.1 _ (by decide) 4⟩
